import Mathlib

/-!
Shallow embedding of `src/point.rs`: an immutable integer 3D point type with
arithmetic operators, metrics, integer normalization, and two lazy iterators
(`PointsBetween`, `PlaneNeighbours`).  Rust `i64` arithmetic is modelled over
`Int` (the spec treats overflow as out of scope); Rust panics (assertion
failure in `normalized`, division by zero) are modelled with `Option`.
-/

/-- The `Point` struct of `point.rs`: three signed integer coordinates. -/
structure Point where
  x : Int
  y : Int
  z : Int
deriving DecidableEq, Repr

namespace Point

/-- Constant `Point::ZERO`. -/
def ZERO : Point := ⟨0, 0, 0⟩

/-- Constant `Point::ORIGIN`. -/
def ORIGIN : Point := ⟨0, 0, 0⟩

/-- Constant `Point::I`. -/
def I : Point := ⟨1, 0, 0⟩

/-- Constant `Point::J`. -/
def J : Point := ⟨0, 1, 0⟩

/-- Constant `Point::K`. -/
def K : Point := ⟨0, 0, 1⟩

/-- Componentwise addition, `impl Add<Point> for Point`. -/
def add (a b : Point) : Point := ⟨a.x + b.x, a.y + b.y, a.z + b.z⟩

instance : Add Point := ⟨add⟩

/-- Componentwise subtraction, `impl Sub<Point> for Point`. -/
def sub (a b : Point) : Point := ⟨a.x - b.x, a.y - b.y, a.z - b.z⟩

instance : Sub Point := ⟨sub⟩

/-- Componentwise negation, `impl Neg for Point`. -/
def neg (a : Point) : Point := ⟨-a.x, -a.y, -a.z⟩

instance : Neg Point := ⟨neg⟩

/-- Scalar multiplication, `impl Mul<i64> for Point`. -/
def mulScalar (a : Point) (k : Int) : Point := ⟨a.x * k, a.y * k, a.z * k⟩

/-- Dot product, `impl Mul<Point> for Point`. -/
def dot (a b : Point) : Int := a.x * b.x + a.y * b.y + a.z * b.z

/-- Scalar division, `impl Div<i64> for Point`.  Rust `i64` division truncates
toward zero (`Int.tdiv`) and panics on a zero divisor, modelled by `none`. -/
def divScalar (a : Point) (k : Int) : Option Point :=
  if k = 0 then none else some ⟨a.x.tdiv k, a.y.tdiv k, a.z.tdiv k⟩

/-- Method `Point::len_squared`: sum of squared components. -/
def len_squared (p : Point) : Int := p.x ^ 2 + p.y ^ 2 + p.z ^ 2

/-- Structural floor square root on `Nat`: largest `j ≤ k` with `j * j ≤ n`.
Written with structural recursion so that the kernel can evaluate it. -/
def sqrtBelow (n : Nat) : Nat → Nat
  | 0 => 0
  | k + 1 => if (k + 1) * (k + 1) ≤ n then k + 1 else sqrtBelow n k

/-- Models the expression `(m as f64).sqrt() as i64` from `Point::normalized`:
for nonnegative `m` (within the f64-exact range) this is the floor of the real
square root; for negative `m` the float square root is NaN and Rust's
saturating cast yields 0, matched here by `Int.toNat` sending negatives to 0. -/
def intSqrt (m : Int) : Int := (sqrtBelow m.toNat m.toNat : Int)

/-- Method `Point::normalized`: asserts the point is nonzero (panic modelled as
`none`), then divides by the truncated integer length. -/
def normalized (p : Point) : Option Point :=
  if p = ZERO then none else p.divScalar (intSqrt p.len_squared)

/-- Method `Point::distance_squared`. -/
def distance_squared (a b : Point) : Int :=
  (a.x - b.x) ^ 2 + (a.y - b.y) ^ 2 + (a.z - b.z) ^ 2

/-- Method `Point::manhattan_distance`. -/
def manhattan_distance (a b : Point) : Int :=
  |a.x - b.x| + |a.y - b.y| + |a.z - b.z|

/-- Method `Point::down`. -/
def down (p : Point) : Point := ⟨p.x, p.y - 1, p.z⟩

/-- Method `Point::up`. -/
def up (p : Point) : Point := ⟨p.x, p.y + 1, p.z⟩

/-- Method `Point::left`. -/
def left (p : Point) : Point := ⟨p.x - 1, p.y, p.z⟩

/-- Method `Point::right`. -/
def right (p : Point) : Point := ⟨p.x + 1, p.y, p.z⟩

/-- The `FromIterator<i64>` impl: first element is `x`, second is `y`
(`unwrap`, panics when missing, modelled as `none`), third is `z` with
default 0 (`unwrap_or(0)`).  The source iterator is modelled as a list. -/
def from_iter : List Int → Option Point
  | x :: y :: rest => some ⟨x, y, rest.headD 0⟩
  | _ => none

end Point

/-- The `Direction` enum: six axis-aligned unit directions. -/
inductive Direction
  | PosX
  | NegX
  | PosY
  | NegY
  | PosZ
  | NegZ
deriving DecidableEq, Repr

namespace Direction

/-- Method `Direction::to_point`. -/
def to_point : Direction → Point
  | .PosX => Point.I
  | .NegX => -Point.I
  | .PosY => Point.J
  | .NegY => -Point.J
  | .PosZ => Point.K
  | .NegZ => -Point.K

/-- Constant `Direction::PLANE`, returned by `Direction::plane()`. -/
def plane : List Direction := [.PosX, .NegX, .PosY, .NegY]

end Direction

/-- Iterator state of `PointsBetween`; the Rust field `end` is a Lean keyword
and is rendered `endP`. -/
structure PointsBetween where
  current : Point
  endP : Point
  step : Point
  done : Bool
deriving DecidableEq, Repr

namespace PointsBetween

/-- Constructor `PointsBetween::new`: the step is the normalized difference
(panic on a zero-length segment propagates as `none`); the stored end is
`end + step` so the end point itself is yielded. -/
def new (start endp : Point) : Option PointsBetween :=
  ((endp - start).normalized).map fun step =>
    { current := start, endP := endp + step, step := step, done := false }

/-- Constructor `PointsBetween::with_step`: caller-supplied step, no
normalization. -/
def with_step (start endp step : Point) : PointsBetween :=
  { current := start, endP := endp + step, step := step, done := false }

/-- The `Iterator::next` impl for `PointsBetween`, as a state-passing
function: returns the yielded element and the successor state. -/
def next (it : PointsBetween) : Option Point × PointsBetween :=
  if it.done then (none, it)
  else
    let c := it.current + it.step
    (some it.current, { it with current := c, done := decide (c = it.endP) })

/-- State after one call to `next` (the mutation the Rust call performs). -/
def stepState (it : PointsBetween) : PointsBetween := it.next.2

/-- Fuelled materialization of the iterator: collect yielded elements until
`next` returns `None` or the fuel runs out. -/
def toList : PointsBetween → Nat → List Point
  | _, 0 => []
  | it, fuel + 1 =>
    match it.next with
    | (none, _) => []
    | (some p, it2) => p :: it2.toList fuel

end PointsBetween

/-- Iterator state of `PlaneNeighbours`: the anchor point and an index into
`Direction::PLANE`. -/
structure PlaneNeighbours where
  p : Point
  dir_idx : Nat
deriving DecidableEq, Repr

namespace PlaneNeighbours

/-- Constructor `PlaneNeighbours::new`. -/
def new (p : Point) : PlaneNeighbours := ⟨p, 0⟩

/-- The `Iterator::next` impl for `PlaneNeighbours`: look up the current plane
direction (out of range gives `None`), add it to the anchor, bump the index. -/
def next (it : PlaneNeighbours) : Option Point × PlaneNeighbours :=
  ((Direction.plane[it.dir_idx]?).map fun d => it.p + d.to_point,
   { it with dir_idx := it.dir_idx + 1 })

/-- State after one call to `next`. -/
def stepState (it : PlaneNeighbours) : PlaneNeighbours := it.next.2

/-- Fuelled materialization of the iterator. -/
def toList : PlaneNeighbours → Nat → List Point
  | _, 0 => []
  | it, fuel + 1 =>
    match it.next with
    | (none, _) => []
    | (some p, it2) => p :: it2.toList fuel

end PlaneNeighbours

/-- Method `Point::plane_neighbors`. -/
def Point.plane_neighbors (p : Point) : PlaneNeighbours := PlaneNeighbours.new p

/-- Method `Point::points_between`. -/
def Point.points_between (a b : Point) : Option PointsBetween :=
  PointsBetween.new a b

/-- Well-formedness of a segment for claim C1: the endpoints differ and their
difference is parallel to a coordinate axis. -/
def axisAligned (s e : Point) : Prop :=
  s ≠ e ∧
    (((e - s).y = 0 ∧ (e - s).z = 0) ∨
     ((e - s).x = 0 ∧ (e - s).z = 0) ∨
     ((e - s).x = 0 ∧ (e - s).y = 0))

instance (s e : Point) : Decidable (axisAligned s e) := by
  unfold axisAligned; infer_instance

/- ### Basic component lemmas -/

theorem Point.ext_iff' (a b : Point) : a = b ↔ a.x = b.x ∧ a.y = b.y ∧ a.z = b.z := by
  cases a; cases b; simp [Point.mk.injEq]

theorem Point.add_def (a b : Point) : a + b = ⟨a.x + b.x, a.y + b.y, a.z + b.z⟩ := rfl

theorem Point.sub_def (a b : Point) : a - b = ⟨a.x - b.x, a.y - b.y, a.z - b.z⟩ := rfl

theorem Point.neg_def (a : Point) : -a = ⟨-a.x, -a.y, -a.z⟩ := rfl

/- ### Floor square root lemmas -/

theorem Point.sqrtBelow_mul_le (n : Nat) : ∀ k, Point.sqrtBelow n k * Point.sqrtBelow n k ≤ n := by
  intro k
  induction k with
  | zero => simp [Point.sqrtBelow]
  | succ k ih =>
    unfold Point.sqrtBelow
    split
    · assumption
    · exact ih

theorem Point.le_sqrtBelow (n : Nat) :
    ∀ k j, j ≤ k → j * j ≤ n → j ≤ Point.sqrtBelow n k := by
  intro k
  induction k with
  | zero => intro j hj _; simpa [Point.sqrtBelow] using hj
  | succ k ih =>
    intro j hj hjn
    unfold Point.sqrtBelow
    split
    · exact hj
    · rename_i hfalse
      rcases Nat.lt_succ_iff_lt_or_eq.mp (Nat.lt_succ_of_le hj) with h | h
      · exact ih j (Nat.lt_succ_iff.mp h) hjn
      · exact absurd (h ▸ hjn) hfalse

theorem Point.lt_succ_sqrtBelow (n : Nat) :
    n < (Point.sqrtBelow n n + 1) * (Point.sqrtBelow n n + 1) := by
  by_contra hcon
  push_neg at hcon
  have h1 : Point.sqrtBelow n n + 1 ≤ n :=
    le_trans (Nat.le_mul_of_pos_left _ (Nat.succ_pos _)) hcon
  have h2 := Point.le_sqrtBelow n n (Point.sqrtBelow n n + 1) h1 hcon
  omega

theorem Point.sqrtBelow_mul_self (a : Nat) : Point.sqrtBelow (a * a) (a * a) = a := by
  have hle : Point.sqrtBelow (a * a) (a * a) ≤ a := by
    by_contra hcon
    push_neg at hcon
    have h1 : (a + 1) * (a + 1) ≤
        Point.sqrtBelow (a * a) (a * a) * Point.sqrtBelow (a * a) (a * a) :=
      Nat.mul_le_mul hcon hcon
    have h2 := Point.sqrtBelow_mul_le (a * a) (a * a)
    nlinarith
  have hge : a ≤ Point.sqrtBelow (a * a) (a * a) := by
    cases a with
    | zero => exact Nat.zero_le _
    | succ b =>
      exact Point.le_sqrtBelow _ _ _ (Nat.le_mul_of_pos_left _ (Nat.succ_pos _)) le_rfl
  omega

theorem Point.intSqrt_sq_le (m : Int) (hm : 0 ≤ m) :
    Point.intSqrt m ^ 2 ≤ m ∧ m < (Point.intSqrt m + 1) ^ 2 := by
  have h1 := Point.sqrtBelow_mul_le m.toNat m.toNat
  have h2 := Point.lt_succ_sqrtBelow m.toNat
  have hm' : ((m.toNat : Int)) = m := Int.toNat_of_nonneg hm
  constructor
  · calc Point.intSqrt m ^ 2
        = ((Point.sqrtBelow m.toNat m.toNat * Point.sqrtBelow m.toNat m.toNat : Nat) : Int) := by
          simp [Point.intSqrt]; ring
      _ ≤ ((m.toNat : Int)) := by exact_mod_cast h1
      _ = m := hm'
  · calc m = ((m.toNat : Int)) := hm'.symm
      _ < (((Point.sqrtBelow m.toNat m.toNat + 1) * (Point.sqrtBelow m.toNat m.toNat + 1) : Nat) : Int) := by
          exact_mod_cast h2
      _ = (Point.intSqrt m + 1) ^ 2 := by simp [Point.intSqrt]; ring

theorem Point.one_le_intSqrt (m : Int) (hm : 1 ≤ m) : 1 ≤ Point.intSqrt m := by
  have h1 : 1 ≤ m.toNat := by omega
  have h2 := Point.le_sqrtBelow m.toNat m.toNat 1 h1 (by omega)
  have h3 : (1 : Int) ≤ ((Point.sqrtBelow m.toNat m.toNat : Nat) : Int) := by exact_mod_cast h2
  simpa [Point.intSqrt] using h3

theorem Point.intSqrt_sq (a : Int) : Point.intSqrt (a ^ 2) = (a.natAbs : Int) := by
  have h0 : ((a.natAbs * a.natAbs : Nat) : Int) = a * a := Int.natAbs_mul_self
  have h1 : (a ^ 2).toNat = a.natAbs * a.natAbs := by
    have h2 : a ^ 2 = ((a.natAbs * a.natAbs : Nat) : Int) := by rw [h0]; ring
    rw [h2, Int.toNat_natCast]
  simp [Point.intSqrt, h1, Point.sqrtBelow_mul_self]

theorem Point.len_squared_pos (p : Point) (h : p ≠ Point.ZERO) : 1 ≤ p.len_squared := by
  have hc : p.x ≠ 0 ∨ p.y ≠ 0 ∨ p.z ≠ 0 := by
    by_contra hcon
    push_neg at hcon
    exact h ((Point.ext_iff' p Point.ZERO).mpr ⟨hcon.1, hcon.2.1, hcon.2.2⟩)
  unfold Point.len_squared
  rcases hc with h1 | h1 | h1 <;> rcases h1.lt_or_lt with h2 | h2 <;>
    nlinarith [sq_nonneg p.x, sq_nonneg p.y, sq_nonneg p.z]

/- ### Claim theorems (easy group) -/

/-- C7: for all points `a` and `b`, `(a + b) - b = a` and `-(-a) = a`. -/
theorem point_add_sub_cancel_and_neg_neg (a b : Point) :
    (a + b) - b = a ∧ -(-a) = a := by
  constructor <;>
    simp [Point.add_def, Point.sub_def, Point.neg_def, Point.ext_iff']

/-- C3: normalizing the zero vector fails (`None` models the Rust panic), and
consequently `PointsBetween::new p p` fails for every point `p`. -/
theorem normalized_zero_fails_and_degenerate_segment_fails (p : Point) :
    Point.normalized Point.ZERO = none ∧ PointsBetween.new p p = none := by
  refine ⟨by simp [Point.normalized], ?_⟩
  have h : p - p = Point.ZERO := by
    simp [Point.sub_def, Point.ZERO, Point.ext_iff']
  simp [PointsBetween.new, h, Point.normalized]

/-- C5: constructing a `Point` from an ordered integer sequence takes the
first element as `x`, the second as `y`, the third as `z` when present with
default 0 when exactly two are given, and fails on fewer than two elements. -/
theorem from_iter_spec (a b c : Int) (rest l : List Int) (h : l.length < 2) :
    Point.from_iter (a :: b :: c :: rest) = some ⟨a, b, c⟩ ∧
      Point.from_iter [a, b] = some ⟨a, b, 0⟩ ∧
      Point.from_iter l = none := by
  refine ⟨rfl, rfl, ?_⟩
  match l with
  | [] => rfl
  | [_] => rfl
  | _ :: _ :: _ => exact absurd h (by simp [List.length])

/-- Witness for C5 at concrete inputs. -/
theorem from_iter_spec_witness :
    Point.from_iter [1, 2, 3, 4] = some ⟨1, 2, 3⟩ ∧
      Point.from_iter [1, 2] = some ⟨1, 2, 0⟩ ∧
      Point.from_iter [7] = none :=
  from_iter_spec 1 2 3 [4] [7] (by decide)

/-- C6: scalar division is componentwise truncation toward zero and total for
every nonzero divisor; division by zero fails; multiplication by a nonzero
scalar followed by division by it round-trips. -/
theorem divScalar_spec (p : Point) (k : Int) (hk : k ≠ 0) :
    p.divScalar k = some ⟨p.x.tdiv k, p.y.tdiv k, p.z.tdiv k⟩ ∧
      p.divScalar 0 = none ∧
      (p.mulScalar k).divScalar k = some p := by
  refine ⟨by simp [Point.divScalar, hk], by simp [Point.divScalar], ?_⟩
  simp [Point.divScalar, Point.mulScalar, hk, Int.mul_tdiv_cancel _ hk]

/-- Witness for C6 at a concrete point and divisor. -/
theorem divScalar_spec_witness :
    (Point.mk 7 (-7) 5).divScalar 2 = some ⟨3, -3, 2⟩ ∧
      (Point.mk 7 (-7) 5).divScalar 0 = none ∧
      ((Point.mk 7 (-7) 5).mulScalar 2).divScalar 2 = some ⟨7, -7, 5⟩ :=
  divScalar_spec ⟨7, -7, 5⟩ 2 (by decide)

/-- C2: for every nonzero point, `normalized` divides each component, with
truncation toward zero, by `intSqrt len_squared`, which is the floor of the
real square root of `len_squared`; in particular `normalized (4,0,0)` is
`(1,0,0)`. -/
theorem normalized_eq_tdiv_floor_sqrt (p : Point) (h : p ≠ Point.ZERO) :
    p.normalized = some ⟨p.x.tdiv (Point.intSqrt p.len_squared),
        p.y.tdiv (Point.intSqrt p.len_squared),
        p.z.tdiv (Point.intSqrt p.len_squared)⟩ ∧
      Point.intSqrt p.len_squared ^ 2 ≤ p.len_squared ∧
      p.len_squared < (Point.intSqrt p.len_squared + 1) ^ 2 ∧
      Point.normalized ⟨4, 0, 0⟩ = some ⟨1, 0, 0⟩ := by
  have hpos := Point.len_squared_pos p h
  have hs := Point.one_le_intSqrt _ hpos
  have hbounds := Point.intSqrt_sq_le p.len_squared (by omega)
  refine ⟨?_, hbounds.1, hbounds.2, by decide⟩
  simp [Point.normalized, h, Point.divScalar, show Point.intSqrt p.len_squared ≠ 0 by omega]

/-- Witness for C2 at the concrete nonzero point `(3, 4, 0)`. -/
theorem normalized_eq_tdiv_floor_sqrt_witness :
    Point.normalized ⟨3, 4, 0⟩ = some ⟨Int.tdiv 3 (Point.intSqrt (Point.len_squared ⟨3, 4, 0⟩)),
        Int.tdiv 4 (Point.intSqrt (Point.len_squared ⟨3, 4, 0⟩)),
        Int.tdiv 0 (Point.intSqrt (Point.len_squared ⟨3, 4, 0⟩))⟩ ∧
      Point.intSqrt (Point.len_squared ⟨3, 4, 0⟩) ^ 2 ≤ Point.len_squared ⟨3, 4, 0⟩ ∧
      Point.len_squared ⟨3, 4, 0⟩ < (Point.intSqrt (Point.len_squared ⟨3, 4, 0⟩) + 1) ^ 2 ∧
      Point.normalized ⟨4, 0, 0⟩ = some ⟨1, 0, 0⟩ :=
  normalized_eq_tdiv_floor_sqrt ⟨3, 4, 0⟩ (by decide)

/-- C10: for every nonzero point, `len_squared` is at least 1, hence the
truncated square root used as divisor inside `normalized` is at least 1, and
`normalized` succeeds (the zero-vector assertion is its only failure path). -/
theorem normalized_divisor_never_zero (p : Point) (h : p ≠ Point.ZERO) :
    1 ≤ p.len_squared ∧ 1 ≤ Point.intSqrt p.len_squared ∧ (p.normalized).isSome = true := by
  have hpos := Point.len_squared_pos p h
  have hs := Point.one_le_intSqrt _ hpos
  refine ⟨hpos, hs, ?_⟩
  simp [Point.normalized, h, Point.divScalar, show Point.intSqrt p.len_squared ≠ 0 by omega]

/-- Witness for C10 at the concrete nonzero point `(0, 0, 2)`. -/
theorem normalized_divisor_never_zero_witness :
    1 ≤ Point.len_squared ⟨0, 0, 2⟩ ∧
      1 ≤ Point.intSqrt (Point.len_squared ⟨0, 0, 2⟩) ∧
      (Point.normalized ⟨0, 0, 2⟩).isSome = true :=
  normalized_divisor_never_zero ⟨0, 0, 2⟩ (by decide)

/- ### Iterator helper lemmas -/

theorem PointsBetween.toList_cons_pb (it it2 : PointsBetween) (q : Point) (fuel : Nat)
    (h : it.next = (some q, it2)) : it.toList (fuel + 1) = q :: it2.toList fuel := by
  simp [PointsBetween.toList, h]

theorem PointsBetween.toList_nil_pb (it : PointsBetween) (h : it.next.1 = none) :
    ∀ fuel, it.toList fuel = [] := by
  intro fuel
  cases fuel with
  | zero => rfl
  | succ f =>
    rcases h3 : it.next with ⟨a, b⟩
    rw [h3] at h
    simp only at h
    subst h
    unfold PointsBetween.toList
    rw [h3]

theorem PointsBetween.next_none_iff_done (it : PointsBetween) :
    it.next.1 = none ↔ it.done = true := by
  unfold PointsBetween.next
  split <;> simp_all

theorem PointsBetween.stepState_of_done (it : PointsBetween) (h : it.done = true) :
    it.stepState = it := by
  simp [PointsBetween.stepState, PointsBetween.next, h]

theorem PlaneNeighbours.toList_cons_pn (it it2 : PlaneNeighbours) (q : Point) (fuel : Nat)
    (h : it.next = (some q, it2)) : it.toList (fuel + 1) = q :: it2.toList fuel := by
  simp [PlaneNeighbours.toList, h]

theorem PlaneNeighbours.toList_nil_pn (it : PlaneNeighbours) (h : it.next.1 = none) :
    ∀ fuel, it.toList fuel = [] := by
  intro fuel
  cases fuel with
  | zero => rfl
  | succ f =>
    rcases h3 : it.next with ⟨a, b⟩
    rw [h3] at h
    simp only at h
    subst h
    unfold PlaneNeighbours.toList
    rw [h3]

theorem PlaneNeighbours.next_none_iff_idx (it : PlaneNeighbours) :
    it.next.1 = none ↔ 4 ≤ it.dir_idx := by
  have hlen : Direction.plane.length = 4 := rfl
  simp [PlaneNeighbours.next, List.getElem?_eq_none_iff, hlen]

theorem PlaneNeighbours.stepState_iterate (it : PlaneNeighbours) :
    ∀ j, PlaneNeighbours.stepState^[j] it = ⟨it.p, it.dir_idx + j⟩ := by
  intro j
  induction j with
  | zero => rfl
  | succ j ih =>
    rw [Function.iterate_succ_apply', ih]
    simp [PlaneNeighbours.stepState, PlaneNeighbours.next]
    omega

/- ### Claim theorems (iterator group) -/

/-- C8: once `next` returns `None` on a `PointsBetween` or a `PlaneNeighbours`
state, every later call on the successor states also returns `None` (the done
flag is never cleared and the direction index only grows). -/
theorem iterators_permanently_exhausted (itA : PointsBetween) (itB : PlaneNeighbours)
    (k j : Nat) (hA : itA.next.1 = none) (hB : itB.next.1 = none) :
    (PointsBetween.stepState^[k] itA).next.1 = none ∧
      (PlaneNeighbours.stepState^[j] itB).next.1 = none := by
  constructor
  · have hdone := (PointsBetween.next_none_iff_done itA).mp hA
    rw [Function.iterate_fixed (PointsBetween.stepState_of_done itA hdone) k]
    exact hA
  · have hidx := (PlaneNeighbours.next_none_iff_idx itB).mp hB
    rw [PlaneNeighbours.stepState_iterate itB j, PlaneNeighbours.next_none_iff_idx]
    show 4 ≤ itB.dir_idx + j
    omega

/-- Witness for C8 at concrete exhausted iterator states. -/
theorem iterators_permanently_exhausted_witness :
    (PointsBetween.stepState^[2] ⟨⟨0, 0, 0⟩, ⟨1, 0, 0⟩, ⟨1, 0, 0⟩, true⟩).next.1 = none ∧
      (PlaneNeighbours.stepState^[3] ⟨⟨0, 0, 0⟩, 4⟩).next.1 = none :=
  iterators_permanently_exhausted ⟨⟨0, 0, 0⟩, ⟨1, 0, 0⟩, ⟨1, 0, 0⟩, true⟩ ⟨⟨0, 0, 0⟩, 4⟩
    2 3 (by decide) (by decide)

/-- C9: every successfully constructed `PointsBetween` — via `new` on a
well-formed segment or via `with_step` with any step — yields `Some start` on
its first `next` call. -/
theorem pointsBetween_first_yield_is_start (s e st : Point) (it : PointsBetween)
    (h : PointsBetween.new s e = some it) :
    it.next.1 = some s ∧ (PointsBetween.with_step s e st).next.1 = some s := by
  constructor
  · rcases Option.map_eq_some'.mp h with ⟨u, _, rfl⟩
    simp [PointsBetween.next]
  · simp [PointsBetween.with_step, PointsBetween.next]

/-- Witness for C9 at a concrete segment and step. -/
theorem pointsBetween_first_yield_is_start_witness :
    (PointsBetween.mk ⟨0, 0, 0⟩ ⟨3, 0, 0⟩ ⟨1, 0, 0⟩ false).next.1 = some ⟨0, 0, 0⟩ ∧
      (PointsBetween.with_step ⟨0, 0, 0⟩ ⟨2, 0, 0⟩ ⟨5, 5, 5⟩).next.1 = some ⟨0, 0, 0⟩ :=
  pointsBetween_first_yield_is_start ⟨0, 0, 0⟩ ⟨2, 0, 0⟩ ⟨5, 5, 5⟩
    ⟨⟨0, 0, 0⟩, ⟨3, 0, 0⟩, ⟨1, 0, 0⟩, false⟩ (by decide)

/-- C4: `plane_neighbors` yields exactly the four neighbors in the fixed
`Direction::plane()` order +X, −X, +Y, −Y and then returns `None`. -/
theorem plane_neighbors_yields_four (p : Point) (fuel : Nat) (h : 4 ≤ fuel) :
    (p.plane_neighbors).toList fuel =
        [p + ⟨1, 0, 0⟩, p + ⟨-1, 0, 0⟩, p + ⟨0, 1, 0⟩, p + ⟨0, -1, 0⟩] ∧
      (PlaneNeighbours.stepState^[4] p.plane_neighbors).next.1 = none := by
  obtain ⟨n, rfl⟩ : ∃ n, fuel = n + 1 + 1 + 1 + 1 := ⟨fuel - 4, by omega⟩
  have e0 : PlaneNeighbours.next ⟨p, 0⟩ = (some (p + ⟨1, 0, 0⟩), ⟨p, 1⟩) := rfl
  have e1 : PlaneNeighbours.next ⟨p, 1⟩ = (some (p + ⟨-1, 0, 0⟩), ⟨p, 2⟩) := rfl
  have e2 : PlaneNeighbours.next ⟨p, 2⟩ = (some (p + ⟨0, 1, 0⟩), ⟨p, 3⟩) := rfl
  have e3 : PlaneNeighbours.next ⟨p, 3⟩ = (some (p + ⟨0, -1, 0⟩), ⟨p, 4⟩) := rfl
  constructor
  · show PlaneNeighbours.toList ⟨p, 0⟩ (n + 1 + 1 + 1 + 1) = _
    rw [PlaneNeighbours.toList_cons_pn _ _ _ _ e0,
      PlaneNeighbours.toList_cons_pn _ _ _ _ e1,
      PlaneNeighbours.toList_cons_pn _ _ _ _ e2,
      PlaneNeighbours.toList_cons_pn _ _ _ _ e3,
      PlaneNeighbours.toList_nil_pn ⟨p, 4⟩ rfl n]
  · rw [PlaneNeighbours.stepState_iterate, PlaneNeighbours.next_none_iff_idx]
    show 4 ≤ 0 + 4
    omega

/- ### Point algebra lemmas for the line iterator -/

theorem Point.add_left_cancel' (c a b : Point) (h : c + a = c + b) : a = b := by
  rw [Point.ext_iff'] at h ⊢
  simp [Point.add_def] at h
  omega

theorem Point.mulScalar_one (v : Point) : v.mulScalar 1 = v := by
  rw [Point.ext_iff']
  simp [Point.mulScalar]

theorem Point.add_mulScalar_zero (c v : Point) : c + v.mulScalar 0 = c := by
  rw [Point.ext_iff']
  simp [Point.mulScalar, Point.add_def]

theorem Point.add_mulScalar_succ (c v : Point) (m : Int) :
    c + v.mulScalar (m + 1) = (c + v) + v.mulScalar m := by
  rw [Point.ext_iff']
  simp [Point.mulScalar, Point.add_def]
  refine ⟨by ring, by ring, by ring⟩

theorem Point.mulScalar_inj (v : Point) (hv : v ≠ Point.ZERO) {a b : Int}
    (h : v.mulScalar a = v.mulScalar b) : a = b := by
  have hc : v.x ≠ 0 ∨ v.y ≠ 0 ∨ v.z ≠ 0 := by
    by_contra hcon
    push_neg at hcon
    exact hv ((Point.ext_iff' v Point.ZERO).mpr ⟨hcon.1, hcon.2.1, hcon.2.2⟩)
  rw [Point.ext_iff'] at h
  simp only [Point.mulScalar] at h
  rcases hc with h1 | h1 | h1
  · exact mul_left_cancel₀ h1 h.1
  · exact mul_left_cancel₀ h1 h.2.1
  · exact mul_left_cancel₀ h1 h.2.2

/-- Core run lemma: started at `c` with a nonzero step `v` and stored end
`c + (n+1) • v`, the iterator yields exactly `c, c+v, …, c+n•v` whenever the
fuel covers the run. -/
theorem PointsBetween.toList_arith (v : Point) (hv : v ≠ Point.ZERO) :
    ∀ (n : Nat) (c : Point) (fuel : Nat), n + 1 ≤ fuel →
      PointsBetween.toList ⟨c, c + v.mulScalar ((n + 1 : Nat) : Int), v, false⟩ fuel
        = (List.range (n + 1)).map (fun (i : Nat) => c + v.mulScalar (i : Int)) := by
  intro n
  induction n with
  | zero =>
    intro c fuel hf
    obtain ⟨f, rfl⟩ : ∃ f, fuel = f + 1 := ⟨fuel - 1, by omega⟩
    have h1 : c + v = c + v.mulScalar ((0 + 1 : Nat) : Int) := by
      rw [Point.ext_iff']
      simp [Point.mulScalar, Point.add_def]
    have hnext0 : (PointsBetween.mk c (c + v.mulScalar ((0 + 1 : Nat) : Int)) v false).next
        = (some c, ⟨c + v, c + v.mulScalar ((0 + 1 : Nat) : Int), v,
            decide (c + v = c + v.mulScalar ((0 + 1 : Nat) : Int))⟩) := rfl
    have hnext : (PointsBetween.mk c (c + v.mulScalar ((0 + 1 : Nat) : Int)) v false).next
        = (some c, ⟨c + v, c + v.mulScalar ((0 + 1 : Nat) : Int), v, true⟩) := by
      rw [hnext0, decide_eq_true h1]
    rw [PointsBetween.toList_cons_pb _ _ _ _ hnext,
      PointsBetween.toList_nil_pb _ ((PointsBetween.next_none_iff_done _).mpr rfl) f]
    rw [show List.range 1 = [0] from rfl]
    simp [Point.add_mulScalar_zero]
  | succ n ih =>
    intro c fuel hf
    obtain ⟨f, rfl⟩ : ∃ f, fuel = f + 1 := ⟨fuel - 1, by omega⟩
    have hne : c + v ≠ c + v.mulScalar ((n + 1 + 1 : Nat) : Int) := by
      intro hcontr
      have h2 : v.mulScalar 1 = v.mulScalar ((n + 1 + 1 : Nat) : Int) := by
        rw [Point.mulScalar_one]
        exact Point.add_left_cancel' c _ _ hcontr
      have h3 := Point.mulScalar_inj v hv h2
      omega
    have hnext0 : (PointsBetween.mk c (c + v.mulScalar ((n + 1 + 1 : Nat) : Int)) v false).next
        = (some c, ⟨c + v, c + v.mulScalar ((n + 1 + 1 : Nat) : Int), v,
            decide (c + v = c + v.mulScalar ((n + 1 + 1 : Nat) : Int))⟩) := rfl
    have hnext : (PointsBetween.mk c (c + v.mulScalar ((n + 1 + 1 : Nat) : Int)) v false).next
        = (some c, ⟨c + v, c + v.mulScalar ((n + 1 + 1 : Nat) : Int), v, false⟩) := by
      rw [hnext0, decide_eq_false hne]
    rw [PointsBetween.toList_cons_pb _ _ _ _ hnext]
    have hE : c + v.mulScalar ((n + 1 + 1 : Nat) : Int)
        = (c + v) + v.mulScalar ((n + 1 : Nat) : Int) := by
      rw [Point.ext_iff']
      simp only [Point.mulScalar, Point.add_def]
      push_cast
      refine ⟨by ring, by ring, by ring⟩
    rw [hE, ih (c + v) f (by omega)]
    conv_rhs => rw [List.range_succ_eq_map, List.map_cons, List.map_map]
    congr 1
    · rw [Nat.cast_zero, Point.add_mulScalar_zero]
    · apply List.map_congr_left
      intro a _
      show (c + v) + v.mulScalar ((a : Nat) : Int) = c + v.mulScalar ((a.succ : Nat) : Int)
      rw [show ((a.succ : Nat) : Int) = (a : Int) + 1 by push_cast; ring,
        Point.add_mulScalar_succ]

/-- Normalizing a nonzero axis-aligned vector gives a nonzero unit direction
that scales back to the vector by its Manhattan length. -/
theorem Point.normalized_axis (d : Point) (hd : d ≠ Point.ZERO)
    (h : (d.y = 0 ∧ d.z = 0) ∨ (d.x = 0 ∧ d.z = 0) ∨ (d.x = 0 ∧ d.y = 0)) :
    ∃ u : Point, d.normalized = some u ∧ u ≠ Point.ZERO ∧
      u.mulScalar ((d.x.natAbs + d.y.natAbs + d.z.natAbs : Nat) : Int) = d := by
  rcases h with ⟨h1, h2⟩ | ⟨h1, h2⟩ | ⟨h1, h2⟩
  · have ha : d.x ≠ 0 := fun h0 => hd ((Point.ext_iff' d Point.ZERO).mpr ⟨h0, h1, h2⟩)
    have hlen : d.len_squared = d.x ^ 2 := by
      unfold Point.len_squared; rw [h1, h2]; ring
    have hsqrt : Point.intSqrt d.len_squared = (d.x.natAbs : Int) := by
      rw [hlen, Point.intSqrt_sq]
    have hdvd : (d.x.natAbs : Int) ≠ 0 := Nat.cast_ne_zero.mpr (Int.natAbs_ne_zero.mpr ha)
    have htd : d.x.tdiv (d.x.natAbs : Int) = d.x.sign := by
      nth_rewrite 1 [← Int.sign_mul_natAbs d.x]
      exact Int.mul_tdiv_cancel _ hdvd
    refine ⟨⟨d.x.sign, 0, 0⟩, ?_, ?_, ?_⟩
    · simp only [Point.normalized, Point.divScalar, if_neg hd, hsqrt, if_neg hdvd, htd,
        h1, h2, Int.zero_tdiv]
    · intro hcontr
      exact ha (Int.sign_eq_zero_iff_zero.mp ((Point.ext_iff' _ _).mp hcontr).1)
    · rw [Point.ext_iff']
      simp only [Point.mulScalar, h1, h2, Int.natAbs_zero, Nat.add_zero, zero_mul,
        Int.sign_mul_natAbs]
      exact ⟨trivial, trivial, trivial⟩
  · have ha : d.y ≠ 0 := fun h0 => hd ((Point.ext_iff' d Point.ZERO).mpr ⟨h1, h0, h2⟩)
    have hlen : d.len_squared = d.y ^ 2 := by
      unfold Point.len_squared; rw [h1, h2]; ring
    have hsqrt : Point.intSqrt d.len_squared = (d.y.natAbs : Int) := by
      rw [hlen, Point.intSqrt_sq]
    have hdvd : (d.y.natAbs : Int) ≠ 0 := Nat.cast_ne_zero.mpr (Int.natAbs_ne_zero.mpr ha)
    have htd : d.y.tdiv (d.y.natAbs : Int) = d.y.sign := by
      nth_rewrite 1 [← Int.sign_mul_natAbs d.y]
      exact Int.mul_tdiv_cancel _ hdvd
    refine ⟨⟨0, d.y.sign, 0⟩, ?_, ?_, ?_⟩
    · simp only [Point.normalized, Point.divScalar, if_neg hd, hsqrt, if_neg hdvd, htd,
        h1, h2, Int.zero_tdiv]
    · intro hcontr
      exact ha (Int.sign_eq_zero_iff_zero.mp ((Point.ext_iff' _ _).mp hcontr).2.1)
    · rw [Point.ext_iff']
      simp only [Point.mulScalar, h1, h2, Int.natAbs_zero, Nat.add_zero, Nat.zero_add,
        zero_mul, Int.sign_mul_natAbs]
      exact ⟨trivial, trivial, trivial⟩
  · have ha : d.z ≠ 0 := fun h0 => hd ((Point.ext_iff' d Point.ZERO).mpr ⟨h1, h2, h0⟩)
    have hlen : d.len_squared = d.z ^ 2 := by
      unfold Point.len_squared; rw [h1, h2]; ring
    have hsqrt : Point.intSqrt d.len_squared = (d.z.natAbs : Int) := by
      rw [hlen, Point.intSqrt_sq]
    have hdvd : (d.z.natAbs : Int) ≠ 0 := Nat.cast_ne_zero.mpr (Int.natAbs_ne_zero.mpr ha)
    have htd : d.z.tdiv (d.z.natAbs : Int) = d.z.sign := by
      nth_rewrite 1 [← Int.sign_mul_natAbs d.z]
      exact Int.mul_tdiv_cancel _ hdvd
    refine ⟨⟨0, 0, d.z.sign⟩, ?_, ?_, ?_⟩
    · simp only [Point.normalized, Point.divScalar, if_neg hd, hsqrt, if_neg hdvd, htd,
        h1, h2, Int.zero_tdiv]
    · intro hcontr
      exact ha (Int.sign_eq_zero_iff_zero.mp ((Point.ext_iff' _ _).mp hcontr).2.2)
    · rw [Point.ext_iff']
      simp only [Point.mulScalar, h1, h2, Int.natAbs_zero, Nat.zero_add, zero_mul,
        Int.sign_mul_natAbs]
      exact ⟨trivial, trivial, trivial⟩

/-- Witness for C4 at the concrete anchor `(1, 2, 3)` from the spec. -/
theorem plane_neighbors_yields_four_witness :
    (Point.plane_neighbors ⟨1, 2, 3⟩).toList 10 =
        [⟨2, 2, 3⟩, ⟨0, 2, 3⟩, ⟨1, 3, 3⟩, ⟨1, 1, 3⟩] ∧
      (PlaneNeighbours.stepState^[4] (Point.plane_neighbors ⟨1, 2, 3⟩)).next.1 = none := by
  have h := plane_neighbors_yields_four ⟨1, 2, 3⟩ 10 (by decide)
  refine ⟨?_, h.2⟩
  rw [h.1]
  decide

/-- C1: on an axis-aligned segment the line iterator succeeds, and yields
exactly the lattice points of the segment — the `Manhattan length + 1` points
`start + i • u` for the unit step `u` — each exactly once (`Nodup`), starting
at `start` and containing `end`, independent of any sufficient fuel (so the
iterator terminates after them); in particular the segment from `(0,0,0)` to
`(3,0,0)` yields exactly `[(0,0,0), (1,0,0), (2,0,0), (3,0,0)]`. -/
theorem pointsBetween_new_yields_segment (s e : Point) (h : axisAligned s e) :
    (∃ it u, PointsBetween.new s e = some it ∧ (e - s).normalized = some u ∧
      ∀ fuel, (s.manhattan_distance e).toNat + 1 ≤ fuel →
        it.toList fuel =
            (List.range ((s.manhattan_distance e).toNat + 1)).map
              (fun (i : Nat) => s + u.mulScalar (i : Int)) ∧
          (it.toList fuel).Nodup ∧
          (it.toList fuel).head? = some s ∧
          e ∈ it.toList fuel) ∧
      (PointsBetween.new ⟨0, 0, 0⟩ ⟨3, 0, 0⟩).map (fun it2 => it2.toList 5)
        = some [⟨0, 0, 0⟩, ⟨1, 0, 0⟩, ⟨2, 0, 0⟩, ⟨3, 0, 0⟩] ∧
      (PointsBetween.new ⟨0, 0, 0⟩ ⟨3, 0, 0⟩).map (fun it2 => it2.toList 99)
        = some [⟨0, 0, 0⟩, ⟨1, 0, 0⟩, ⟨2, 0, 0⟩, ⟨3, 0, 0⟩] := by
  refine ⟨?_, by decide, by decide⟩
  obtain ⟨hne, hax⟩ := h
  have hd : e - s ≠ Point.ZERO := by
    intro h0
    apply hne
    have h1 := (Point.ext_iff' _ _).mp h0
    simp only [Point.sub_def, Point.ZERO] at h1
    exact (Point.ext_iff' s e).mpr ⟨by omega, by omega, by omega⟩
  obtain ⟨u, hnorm, hu0, hmul⟩ := Point.normalized_axis (e - s) hd hax
  set n : Nat := (e - s).x.natAbs + (e - s).y.natAbs + (e - s).z.natAbs with hn_def
  have hmd : s.manhattan_distance e = ((n : Nat) : Int) := by
    unfold Point.manhattan_distance
    rw [hn_def]
    push_cast [Int.natCast_natAbs]
    rw [show (e - s).x = e.x - s.x from rfl, show (e - s).y = e.y - s.y from rfl,
      show (e - s).z = e.z - s.z from rfl,
      abs_sub_comm e.x s.x, abs_sub_comm e.y s.y, abs_sub_comm e.z s.z]
  have hman : (s.manhattan_distance e).toNat = n := by
    rw [hmd, Int.toNat_natCast]
  have he : e = s + u.mulScalar ((n : Nat) : Int) := by
    have h1 := (Point.ext_iff' _ _).mp hmul
    simp only [Point.mulScalar, Point.sub_def] at h1
    rw [Point.ext_iff']
    simp only [Point.add_def, Point.mulScalar]
    refine ⟨by linarith [h1.1], by linarith [h1.2.1], by linarith [h1.2.2]⟩
  have hend : e + u = s + u.mulScalar ((n + 1 : Nat) : Int) := by
    rw [he, Point.ext_iff']
    simp only [Point.add_def, Point.mulScalar]
    push_cast
    refine ⟨by ring, by ring, by ring⟩
  refine ⟨⟨s, e + u, u, false⟩, u, by simp [PointsBetween.new, hnorm], hnorm, ?_⟩
  intro fuel hf
  rw [hman] at hf ⊢
  rw [hend, PointsBetween.toList_arith u hu0 n s fuel hf]
  refine ⟨rfl, ?_, ?_, ?_⟩
  · refine List.Nodup.map ?_ (List.nodup_range _)
    intro i j hij
    exact Nat.cast_injective (Point.mulScalar_inj u hu0 (Point.add_left_cancel' s _ _ hij))
  · rw [List.range_succ_eq_map, List.map_cons, List.head?_cons]
    rw [Nat.cast_zero, Point.add_mulScalar_zero]
  · rw [List.mem_map]
    exact ⟨n, List.mem_range.mpr (by omega), he.symm⟩

/-- Witness for C1 at the concrete segment from `(0,0,0)` to `(3,0,0)`. -/
theorem pointsBetween_new_yields_segment_witness :
    (∃ it u, PointsBetween.new ⟨0, 0, 0⟩ ⟨3, 0, 0⟩ = some it ∧
      ((⟨3, 0, 0⟩ : Point) - ⟨0, 0, 0⟩).normalized = some u ∧
      ∀ fuel, (Point.manhattan_distance ⟨0, 0, 0⟩ ⟨3, 0, 0⟩).toNat + 1 ≤ fuel →
        it.toList fuel =
            (List.range ((Point.manhattan_distance ⟨0, 0, 0⟩ ⟨3, 0, 0⟩).toNat + 1)).map
              (fun (i : Nat) => (⟨0, 0, 0⟩ : Point) + u.mulScalar (i : Int)) ∧
          (it.toList fuel).Nodup ∧
          (it.toList fuel).head? = some ⟨0, 0, 0⟩ ∧
          (⟨3, 0, 0⟩ : Point) ∈ it.toList fuel) ∧
      (PointsBetween.new ⟨0, 0, 0⟩ ⟨3, 0, 0⟩).map (fun it2 => it2.toList 5)
        = some [⟨0, 0, 0⟩, ⟨1, 0, 0⟩, ⟨2, 0, 0⟩, ⟨3, 0, 0⟩] ∧
      (PointsBetween.new ⟨0, 0, 0⟩ ⟨3, 0, 0⟩).map (fun it2 => it2.toList 99)
        = some [⟨0, 0, 0⟩, ⟨1, 0, 0⟩, ⟨2, 0, 0⟩, ⟨3, 0, 0⟩] :=
  pointsBetween_new_yields_segment ⟨0, 0, 0⟩ ⟨3, 0, 0⟩ (by decide)
